import Mathlib

/-!
Verification of the pyctr SRL/util sources against their specification.

The Python sources are shallowly embedded:
* Python `str` values are `List Char` (a sequence of code points) where string
  algorithms matter, and `String` where strings are only compared for equality.
* Python `bytes` values are `List ℕ` (one natural per byte).
* Python arbitrary-precision `int` is `ℤ` (or `ℕ` for values that are read
  from raw bytes and hence nonnegative); the bitwise operators on negative
  numbers follow two's complement, embedded below as `pyAnd`/`pyOr`/`pyNot`.
* Exceptions are `Except`; an attribute that may never have been assigned is
  an `Option` field (`none` = the attribute does not exist on the object).
-/

/-- Decidable equality on `Except`, so closed runs of the embedded fallible
code can be checked by evaluation. -/
instance exceptDecEq {ε α : Type} [DecidableEq ε] [DecidableEq α] :
    DecidableEq (Except ε α) := fun x y =>
  match x, y with
  | .ok a, .ok b =>
    if h : a = b then .isTrue (by rw [h]) else .isFalse (fun hc => h (Except.ok.inj hc))
  | .error a, .error b =>
    if h : a = b then .isTrue (by rw [h]) else .isFalse (fun hc => h (Except.error.inj hc))
  | .ok _, .error _ => .isFalse Except.noConfusion
  | .error _, .ok _ => .isFalse Except.noConfusion

/-! ## Python integer bitwise operators (two's complement on ℤ) -/

/-- Python `~x` on an arbitrary-precision integer (two's complement). -/
def pyNot : ℤ → ℤ
  | .ofNat m => .negSucc m
  | .negSucc m => .ofNat m

/-- Python `x & y` on arbitrary-precision integers (two's complement).
On a nonnegative and a negative argument the result keeps exactly the bits of
the nonnegative one that are absent from the complement, i.e. a bitwise
difference, written here with accelerated `Nat` primitives. -/
def pyAnd : ℤ → ℤ → ℤ
  | .ofNat m, .ofNat n => .ofNat (m &&& n)
  | .ofNat m, .negSucc n => .ofNat (m ^^^ (m &&& n))
  | .negSucc m, .ofNat n => .ofNat (n ^^^ (n &&& m))
  | .negSucc m, .negSucc n => .negSucc (m ||| n)

/-- Python `x | y` on arbitrary-precision integers (two's complement). -/
def pyOr : ℤ → ℤ → ℤ
  | .ofNat m, .ofNat n => .ofNat (m ||| n)
  | .ofNat m, .negSucc n => .negSucc (n ^^^ (n &&& m))
  | .negSucc m, .ofNat n => .negSucc (m ^^^ (m &&& n))
  | .negSucc m, .negSucc n => .negSucc (m &&& n)

/-! ## Python dynamic equality (used by the region-lockout comparison) -/

/-- A Python value that is either an `int` or a `str`; `srl.py` compares the
integer `region_lockout` against string literals, so the embedding needs the
dynamically typed `==`. -/
inductive PyVal
  | int (n : ℕ)
  | str (s : String)
deriving DecidableEq

/-- Python `==` between an `int` and a `str` is `False`; between two values of
the same type it is structural equality. -/
def pyEq : PyVal → PyVal → Bool
  | .int a, .int b => a == b
  | .str a, .str b => a == b
  | _, _ => false

/-! ## pyctr.util: readle / readbe / roundup -/

/-- util.readle: `int.from_bytes(b, 'little')`. -/
def readle (b : List ℕ) : ℕ := b.foldr (fun byte acc => byte + 256 * acc) 0

/-- util.readbe: `int.from_bytes(b, 'big')`. -/
def readbe (b : List ℕ) : ℕ := b.foldl (fun acc byte => 256 * acc + byte) 0

/-- Fuel-driven binary length: `bitlenAux fuel n` is the bit length of `n`
provided `fuel ≥ n`. Structural recursion so the kernel can evaluate it. -/
def bitlenAux : ℕ → ℕ → ℕ
  | 0, _ => 0
  | fuel + 1, n => if n = 0 then 0 else bitlenAux fuel (n / 2) + 1

/-- Binary length of a natural number (`n.bit_length()` in Python). -/
def bitlen (n : ℕ) : ℕ := bitlenAux n n

/-- Whether the exact rational `n / d` is at least `2 ^ L`, decided with
integer arithmetic only. -/
def qGePow2 (n d : ℕ) (L : ℤ) : Bool :=
  if 0 ≤ L then decide (d * 2 ^ L.toNat ≤ n) else decide (d ≤ n * 2 ^ (-L).toNat)

/-- Mantissa and exponent of the IEEE-754 binary64 value nearest to `n / d`
(round half to even), for positive `n`, `d` with the quotient in the normal
finite range: the represented value is `mantissa * 2 ^ (exponent - 52)` with
`2 ^ 52 ≤ mantissa ≤ 2 ^ 53`. -/
def float53 (n d : ℕ) : ℕ × ℤ :=
  let L : ℤ := (bitlen n : ℤ) - (bitlen d : ℤ)
  let e0 : ℤ := if qGePow2 n d L then L else L - 1
  let s : ℤ := 52 - e0
  let num : ℕ := n * 2 ^ s.toNat
  let den : ℕ := d * 2 ^ (-s).toNat
  let m0 : ℕ := num / den
  let r2 : ℕ := num % den
  let r : ℕ :=
    if 2 * r2 < den then m0
    else if den < 2 * r2 then m0 + 1
    else if m0 % 2 = 0 then m0 else m0 + 1
  (r, e0)

/-- CPython's true division `n / d` of nonnegative machine-unbounded ints:
the correctly rounded (nearest, ties to even) binary64 value of the exact
quotient, as an exact rational. Overflow to infinity and subnormal underflow
are outside the range this development evaluates the model on. -/
def float53_div (n d : ℕ) : ℚ :=
  if n = 0 ∨ d = 0 then 0
  else ((float53 n d).1 : ℚ) * (2 : ℚ) ^ ((float53 n d).2 - 52)

/-- util.roundup: `int(ceil(offset / alignment) * alignment)`.  The division
is Python float division (binary64), `math.ceil` of a finite float is exact,
and the multiplication by `alignment` is integer arithmetic. -/
def roundup (offset alignment : ℕ) : ℤ := ⌈float53_div offset alignment⌉ * (alignment : ℤ)

/-! ## srl.py: path normalization -/

/-- Python `s.startswith(pre)` on code-point lists. -/
def str_startswith : List Char → List Char → Bool
  | _, [] => true
  | [], _ :: _ => false
  | c :: cs, p :: ps => p == c && str_startswith cs ps

/-- Python `s.endswith(suf)` on code-point lists. -/
def str_endswith (s suf : List Char) : Bool := str_startswith s.reverse suf.reverse

/-- Python `s.lower()` on code-point lists (ASCII-faithful). -/
def str_lower (s : List Char) : List Char := s.map Char.toLower

/-- srl.py `_normalize_path`: strip one leading "/" then, if the lowered name
ends in ".bin", keep the FIRST four characters (`p[:4]` in the source). -/
def _normalize_path (p : List Char) : List Char :=
  let p1 := if str_startswith p (("/").data) then p.drop 1 else p
  if str_endswith (str_lower p1) ((".bin").data) then p1.take 4 else p1

/-! ## srl.py: icon (SMDH) titles -/

/-- The fixed ordered table of twelve region names. -/
def region_names : List String :=
  [("Japanese"), ("English"), ("French"), ("German"), ("Italian"), ("Spanish"),
   ("Simplified Chinese"), ("Korean"), ("Dutch"), ("Portuguese"), ("Russian"),
   ("Traditional Chinese")]

/-- The fallback order used by `get_app_title` (English before Japanese). -/
def _region_order_check : List String :=
  [("English"), ("Japanese"), ("French"), ("German"), ("Italian"), ("Spanish"),
   ("Simplified Chinese"), ("Korean"), ("Dutch"), ("Portuguese"), ("Russian"),
   ("Traditional Chinese")]

/-- srl.py `AppTitle` named tuple. -/
structure AppTitle where
  short_desc : String
  long_desc : String
  publisher : String
deriving DecidableEq

/-- srl.py `SRLIcon` object state.  `names` is the read-only mapping built in
`SRLIcon.__init__`; a `none` value is Python `None` (region absent from the
input dict). -/
structure SRLIcon where
  names : List (String × Option AppTitle)
  regionlocks : String
  small_icon : List ℕ
  palette_icon : List ℕ
deriving DecidableEq

/-- srl.py `SRLIcon.__init__`: builds
`{n: names.get(n, None) for n in region_names}`. -/
def SRLIcon_mk (names0 : List (String × AppTitle)) (region_lock_allowed : String)
    (small palette : List ℕ) : SRLIcon :=
  { names := region_names.map (fun n => (n, (names0.find? (fun p => p.1 == n)).map (fun p => p.2))),
    regionlocks := region_lock_allowed, small_icon := small, palette_icon := palette }

/-- Python exceptions that the embedded code can raise. -/
inductive PyError
  | entryNotFoundError
  | keyError
  | attributeError
deriving DecidableEq

/-- An arbitrary exception raised while reading or decoding the icon block
(`SubsectionIO` + `SRLIcon.load` failures of any kind). -/
inductive IconError
  | err (msg : String)
deriving DecidableEq

/-- srl.py `SRLIcon.get_app_title` loop body: walk the preference order; the
subscript `self.names[lang]` raises `KeyError` for an unknown key; a `None`
value is falsy and is skipped; an `AppTitle` (a nonempty tuple) is truthy and
is returned; when the loop exhausts, return the "unknown" triple. -/
def get_app_title_go (names : List (String × Option AppTitle)) :
    List String → Except PyError AppTitle
  | [] => .ok ⟨("unknown"), ("unknown"), ("unknown")⟩
  | lang :: rest =>
    match names.find? (fun p => p.1 == lang) with
    | none => .error .keyError
    | some p =>
      match p.2 with
      | some t => .ok t
      | none => get_app_title_go names rest

/-- srl.py `SRLIcon.get_app_title` applied to an icon object. -/
def get_app_title (icon : SRLIcon) (language : List String) : Except PyError AppTitle :=
  get_app_title_go icon.names language

/-! ## srl.py: SRLReader construction and open -/

/-- Entry table record: `(offset, size)`; `offset == -1` is the sentinel for
entries that must be reconstructed. -/
structure Entry where
  offset : ℤ
  size : ℕ
deriving DecidableEq

/-- srl.py `SRLReader` object state after `__init__`.  `icon : Option SRLIcon`
models the presence of the `icon` attribute: `none` means the attribute was
never assigned.  `entries` is the container's entry table. -/
structure SRLState where
  apptitle : List ℕ
  regionlocks : String
  shortDesc : String
  longDesc : String
  iconOffset : ℕ
  icon : Option SRLIcon
  entries : List (List Char × Entry)
deriving DecidableEq

/-- srl.py lines 100-107: the region-lockout byte is compared with `==`
against the string literals, then falls through to `str(region_lockout)`. -/
def region_lockout_label (region_lockout : ℕ) : String :=
  if pyEq (.int region_lockout) (.str ("0x0")) then ("Normal")
  else if pyEq (.int region_lockout) (.str ("0x80")) then ("China")
  else if pyEq (.int region_lockout) (.str ("0x40")) then ("Korea")
  else toString region_lockout

/-- srl.py `SRLReader._load_icon`: `try: self.icon = SRLIcon.load(f) except
Exception: pass` — on success the attribute is assigned, on any exception the
assignment never happens and the attribute stays absent. -/
def _load_icon (icon_result : Except IconError SRLIcon) : Option SRLIcon :=
  match icon_result with
  | .ok i => some i
  | .error _ => none

/-- srl.py `SRLReader.__init__`.  `read_result` is the outcome of reading the
stream (an unreadable stream propagates its error); `entries` is the entry
table.  Modelled from the spec: the entry table itself is populated by base
class code that is not among the sources, so it is passed in; per spec section
3 the container carries an EntryTable possibly empty.  `icon_result` is the
outcome of reading + decoding the 0x2400-byte icon block (`SRLIcon.load`
behind `SubsectionIO`), abstracted as an `Except` so that "any exception" is
one constructor. -/
def SRLReader_init (read_result : Except PyError (List ℕ))
    (entries : List (List Char × Entry))
    (icon_result : Except IconError SRLIcon) : Except PyError SRLState :=
  match read_result with
  | .error e => .error e
  | .ok file =>
    let header := file.take 0x180
    let unitcode := readbe ((header.drop 0x12).take 1)
    let regionlocks :=
      if unitcode &&& 1 ≠ 0 then
        region_lockout_label (readle ((((file.drop 0x180).take 0xE80).drop 0x34).take 1))
      else ("")
    .ok { apptitle := header.take 0x12, regionlocks := regionlocks,
          shortDesc := (""), longDesc := (""),
          iconOffset := readle ((header.drop 0x68).take 4),
          icon := _load_icon icon_result, entries := entries }

/-- Python attribute access `reader.icon`: raises `AttributeError` when the
attribute was never assigned. -/
def SRLReader_icon (st : SRLState) : Except PyError SRLIcon :=
  match st.icon with
  | some i => .ok i
  | none => .error .attributeError

/-- The value returned by `SRLReader.open`: either a subsection stream
(`SubsectionIO(self._file, base, length)` in the source) or the decompressed
fallback object (`_SRLFSOpenFile`). -/
inductive OpenResult
  | subsection (base : ℕ) (length : ℕ)
  | srlfsFile (path : List Char)
deriving DecidableEq

/-- srl.py `SRLReader.open`: normalize the path if requested, look it up in
the entry table (Modelled from the spec: an absent path fails with
`EntryNotFoundError`, spec sections 4.3 and 7; the source has no handler
around the lookup), then branch on the `-1` offset sentinel.  Note the source
passes `self._icon_offset`, not `entry.offset`, as the subsection base. -/
def SRLReader_open (st : SRLState) (path : List Char) (normalize : Bool) :
    Except PyError OpenResult :=
  let p := if normalize then _normalize_path path else path
  match st.entries.find? (fun e => e.1 == p) with
  | none => .error .entryNotFoundError
  | some e =>
    if e.2.offset == -1 then .ok (.srlfsFile p)
    else .ok (.subsection st.iconOffset e.2.size)

/-! ## pyctr.util decompose (flag decomposition) -/

/-- One named member of a flag table, with its integer bit value. -/
structure FlagMember where
  name : String
  value : ℤ
deriving DecidableEq

/-- `flag._value2member_map_` lookup: the canonical member holding exactly
this value, if any. -/
def value2member (tbl : List FlagMember) (v : ℤ) : Option FlagMember :=
  tbl.find? (fun m => m.value == v)

/-- Modelled from the spec: the helper `_high_bit` used by `decompose` is not
among the sources; per the spec the loop covers still-uncovered bits with
single-bit members from the top down, so `_high_bit v` is `v.bit_length() - 1`,
the index of the highest set bit. -/
def high_bit (n : ℤ) : ℕ := bitlen n.natAbs - 1

/-- util.decompose, first loop: greedily match members whose nonzero value is
bitwise contained in the input, clearing their bits from `not_covered`. -/
def phase1 (value : ℤ) : List FlagMember → ℤ → List FlagMember × ℤ
  | [], nc => ([], nc)
  | m :: rest, nc =>
    if m.value != 0 && (pyAnd m.value value == m.value) then
      let r := phase1 value rest (pyAnd nc (pyNot m.value))
      (m :: r.1, r.2)
    else phase1 value rest nc

/-- util.decompose, `while tmp:` loop (runs only for nonnegative input):
repeatedly take the highest set bit of `tmp`; if that power of two is a named
value, append its member and clear the bit from `not_covered`; always clear
the bit from `tmp`.  Structural on a fuel argument; the caller passes fuel
larger than the bit length so the loop always runs to completion. -/
def coverAux (tbl : List FlagMember) : ℕ → ℤ → ℤ → List FlagMember × ℤ
  | 0, _, nc => ([], nc)
  | fuel + 1, tmp, nc =>
    if tmp == 0 then ([], nc)
    else
      let fv : ℤ := 2 ^ high_bit tmp
      match value2member tbl fv with
      | some m =>
        let r := coverAux tbl fuel (pyAnd tmp (pyNot fv)) (pyAnd nc (pyNot fv))
        (m :: r.1, r.2)
      | none => coverAux tbl fuel (pyAnd tmp (pyNot fv)) nc

/-- Stable insertion (descending by value) used to realize Python's stable
`members.sort(key=lambda m: m._value_, reverse=True)`. -/
def insertDesc (a : FlagMember) : List FlagMember → List FlagMember
  | [] => [a]
  | x :: xs => if x.value ≤ a.value then a :: x :: xs else x :: insertDesc a xs

/-- Stable descending sort by member value (extensionally Python's
`list.sort(key=..., reverse=True)`). -/
def sortDesc : List FlagMember → List FlagMember
  | [] => []
  | a :: rest => insertDesc a (sortDesc rest)

/-- util.decompose up to the `if not negative:` loop: the greedy member match
followed (for nonnegative input) by the single-bit cover of `tmp =
not_covered`; the fuel passed to the loop exceeds the number of set bits, so
the loop runs until `tmp` is zero exactly as in the source. -/
def decompose_p2 (tbl : List FlagMember) (value : ℤ) : List FlagMember × ℤ :=
  let p1 := phase1 value tbl value
  if value < 0 then p1
  else
    let c := coverAux tbl (p1.2.natAbs + 1) p1.2 p1.2
    (p1.1 ++ c.1, c.2)

/-- util.decompose after the `if not members and value in
flag._value2member_map_:` step: for an empty member list whose exact value is
named, append that single member. -/
def decompose_p3 (tbl : List FlagMember) (value : ℤ) : List FlagMember × ℤ :=
  let p2 := decompose_p2 tbl value
  if p2.1.isEmpty then
    match value2member tbl value with
    | some m => ([m], p2.2)
    | none => p2
  else p2

/-- util.decompose: sort the members by descending value (stable), pop the
head when it equals the input value and more than one member remains, and
return `(members, not_covered)`. -/
def decompose (tbl : List FlagMember) (value : ℤ) : List FlagMember × ℤ :=
  let p3 := decompose_p3 tbl value
  match sortDesc p3.1 with
  | m :: x :: rest =>
    if m.value == value then (x :: rest, p3.2) else (m :: x :: rest, p3.2)
  | l => (l, p3.2)

/-- OR of the values of a member list. -/
def orMembers (ms : List FlagMember) : ℤ := ms.foldr (fun m acc => pyOr m.value acc) 0

/-- The reconstruction the spec asserts: OR of the returned members' values
together with the residual. -/
def reconstruct (r : List FlagMember × ℤ) : ℤ := pyOr (orMembers r.1) r.2

/-! ## Concrete fixtures used by the closed evaluation theorems -/

/-- A container image: 0x180-byte primary header whose unit-code byte (0x12)
has the low bit set, followed by an extended header whose byte 0x34 is 0x80
(the "China" region-lockout raw value). -/
def c1_file : List ℕ :=
  List.replicate 0x12 0 ++ [1] ++ List.replicate 0x16D 0 ++ List.replicate 0x34 0 ++ [0x80]

/-- A reader whose icon block lives at 0x2400 and whose entry table has one
entry at offset 0x8000 of size 0x100. -/
def c2_state : SRLState :=
  { apptitle := [], regionlocks := (""), shortDesc := (""), longDesc := (""),
    iconOffset := 0x2400, icon := none,
    entries := [((("arm9").data), { offset := 0x8000, size := 0x100 })] }

/-- Flag table with a composite member A = 3 and a single-bit member B = 1. -/
def c9_table : List FlagMember := [{ name := ("A"), value := 3 }, { name := ("B"), value := 1 }]

/-- Flag table with the single member A = 2 (used by the amended witness). -/
def c9_table2 : List FlagMember := [{ name := ("A"), value := 2 }]

/-- A reader with an empty entry table (used by the C3 witness). -/
def c3_state : SRLState :=
  { apptitle := [], regionlocks := (""), shortDesc := (""), longDesc := (""),
    iconOffset := 0, icon := none, entries := [] }

/-! ## Bitwise toolkit: the embedded Python operators vs Mathlib's Int bit operations -/

theorem ldiff_eq_xor_and (m n : ℕ) : m ^^^ (m &&& n) = Nat.ldiff m n := by
  apply Nat.eq_of_testBit_eq
  intro i
  simp only [Nat.testBit_xor, Nat.testBit_and, Nat.testBit_ldiff]
  cases m.testBit i <;> cases n.testBit i <;> rfl

theorem pyNot_eq (a : ℤ) : pyNot a = Int.lnot a := by
  cases a <;> rfl

theorem pyAnd_eq (a b : ℤ) : pyAnd a b = Int.land a b := by
  cases a <;> cases b <;> simp [pyAnd, Int.land, ldiff_eq_xor_and]

theorem pyOr_eq (a b : ℤ) : pyOr a b = Int.lor a b := by
  cases a <;> cases b <;> simp [pyOr, Int.lor, ldiff_eq_xor_and]

theorem tb_and (a b : ℤ) (k : ℕ) :
    (pyAnd a b).testBit k = ((a.testBit k) && (b.testBit k)) := by
  rw [pyAnd_eq]
  exact Int.testBit_land a b k

theorem tb_or (a b : ℤ) (k : ℕ) :
    (pyOr a b).testBit k = ((a.testBit k) || (b.testBit k)) := by
  rw [pyOr_eq]
  exact Int.testBit_lor a b k

theorem tb_not (a : ℤ) (k : ℕ) : (pyNot a).testBit k = !(a.testBit k) := by
  rw [pyNot_eq]
  exact Int.testBit_lnot a k

theorem int_testBit_ext {a b : ℤ} (h : ∀ k, a.testBit k = b.testBit k) : a = b := by
  cases a with
  | ofNat m =>
    cases b with
    | ofNat n =>
      have : m = n := Nat.eq_of_testBit_eq (fun i => by simpa [Int.testBit] using h i)
      rw [this]
    | negSucc n =>
      exfalso
      have hk := h (max m n + 1)
      have hm : Nat.testBit m (max m n + 1) = false :=
        Nat.testBit_lt_two_pow (Nat.lt_of_lt_of_le (Nat.lt_two_pow m)
          (Nat.pow_le_pow_right (by omega) (by omega)))
      have hn : Nat.testBit n (max m n + 1) = false :=
        Nat.testBit_lt_two_pow (Nat.lt_of_lt_of_le (Nat.lt_two_pow n)
          (Nat.pow_le_pow_right (by omega) (by omega)))
      simp [Int.testBit, hm, hn] at hk
  | negSucc m =>
    cases b with
    | ofNat n =>
      exfalso
      have hk := h (max m n + 1)
      have hm : Nat.testBit m (max m n + 1) = false :=
        Nat.testBit_lt_two_pow (Nat.lt_of_lt_of_le (Nat.lt_two_pow m)
          (Nat.pow_le_pow_right (by omega) (by omega)))
      have hn : Nat.testBit n (max m n + 1) = false :=
        Nat.testBit_lt_two_pow (Nat.lt_of_lt_of_le (Nat.lt_two_pow n)
          (Nat.pow_le_pow_right (by omega) (by omega)))
      simp [Int.testBit, hm, hn] at hk
    | negSucc n =>
      have : m = n := Nat.eq_of_testBit_eq (fun i => by
        have := h i
        simpa [Int.testBit] using this)
      rw [this]

theorem int_testBit_zero_all (k : ℕ) : (0 : ℤ).testBit k = false := by
  show Int.testBit (.ofNat 0) k = false
  simp [Int.testBit]

theorem pyOr_comm (a b : ℤ) : pyOr a b = pyOr b a := by
  apply int_testBit_ext
  intro k
  simp [tb_or, Bool.or_comm]

theorem pyOr_assoc (a b c : ℤ) : pyOr (pyOr a b) c = pyOr a (pyOr b c) := by
  apply int_testBit_ext
  intro k
  simp [tb_or, Bool.or_assoc]

theorem pyOr_left_comm (a b c : ℤ) : pyOr a (pyOr b c) = pyOr b (pyOr a c) := by
  apply int_testBit_ext
  intro k
  simp [tb_or]
  cases a.testBit k <;> cases b.testBit k <;> cases c.testBit k <;> rfl

theorem pyOr_zero (a : ℤ) : pyOr a 0 = a := by
  apply int_testBit_ext
  intro k
  simp [tb_or, int_testBit_zero_all]

theorem zero_pyOr (a : ℤ) : pyOr 0 a = a := by
  rw [pyOr_comm]
  exact pyOr_zero a

theorem pyOr_self (a : ℤ) : pyOr a a = a := by
  apply int_testBit_ext
  intro k
  simp [tb_or]

theorem pyOr_absorb (x y : ℤ) : pyOr x (pyAnd y (pyNot x)) = pyOr x y := by
  apply int_testBit_ext
  intro k
  simp [tb_or, tb_and, tb_not]
  cases x.testBit k <;> cases y.testBit k <;> rfl

theorem pyOr_of_and_eq {a b : ℤ} (h : pyAnd a b = a) : pyOr a b = b := by
  apply int_testBit_ext
  intro k
  have hk := congrArg (fun z => Int.testBit z k) h
  simp only [tb_and] at hk
  simp only [tb_or]
  cases ha : a.testBit k <;> cases hb : b.testBit k <;> simp_all

theorem pyAnd_zero (a : ℤ) : pyAnd a 0 = 0 := by
  apply int_testBit_ext
  intro k
  simp [tb_and, int_testBit_zero_all]

theorem pyAnd_nonneg {a : ℤ} (b : ℤ) (ha : 0 ≤ a) : 0 ≤ pyAnd a b := by
  obtain ⟨m, rfl⟩ := Int.eq_ofNat_of_zero_le ha
  cases b with
  | ofNat n => exact Int.ofNat_nonneg _
  | negSucc n => exact Int.ofNat_nonneg _

theorem bitlenAux_zero (fuel : ℕ) : bitlenAux fuel 0 = 0 := by
  cases fuel <;> simp [bitlenAux]

theorem bitlenAux_bounds :
    ∀ (fuel n : ℕ), n ≤ fuel → n ≠ 0 →
      2 ^ (bitlenAux fuel n - 1) ≤ n ∧ n < 2 ^ bitlenAux fuel n := by
  intro fuel
  induction fuel with
  | zero => intro n h hn; omega
  | succ f ih =>
    intro n hle hne
    rw [bitlenAux, if_neg hne]
    by_cases h1 : n / 2 = 0
    · have hn1 : n = 1 := by omega
      subst hn1
      norm_num [h1, bitlenAux_zero]
    · have hle2 : n / 2 ≤ f := by omega
      obtain ⟨hlo, hhi⟩ := ih (n / 2) hle2 h1
      have hb1 : 1 ≤ bitlenAux f (n / 2) := by
        by_contra hb
        have hb0 : bitlenAux f (n / 2) = 0 := by omega
        rw [hb0] at hhi
        omega
      constructor
      · have heq : bitlenAux f (n / 2) + 1 - 1 = (bitlenAux f (n / 2) - 1) + 1 := by omega
        rw [heq, pow_succ]
        have := Nat.mul_le_mul_right 2 hlo
        omega
      · rw [pow_succ]
        omega

theorem bitlen_testBit {n : ℕ} (hn : n ≠ 0) : Nat.testBit n (bitlen n - 1) = true := by
  obtain ⟨hlo, hhi⟩ := bitlenAux_bounds n n le_rfl hn
  have hpos : 0 < 2 ^ (bitlen n - 1) := Nat.pos_pow_of_pos _ (by omega)
  have hL1 : 1 ≤ bitlen n := by
    by_contra hb
    have hb0 : bitlen n = 0 := by omega
    rw [bitlen] at hb0
    rw [hb0] at hhi
    omega
  have hdiv : n / 2 ^ (bitlen n - 1) = 1 := by
    have h1 : 1 ≤ n / 2 ^ (bitlen n - 1) := (Nat.one_le_div_iff hpos).mpr hlo
    have h2 : n / 2 ^ (bitlen n - 1) < 2 := by
      rw [Nat.div_lt_iff_lt_mul hpos]
      calc n < 2 ^ bitlen n := hhi
        _ = 2 * 2 ^ (bitlen n - 1) := by
            rw [← pow_succ']
            congr 1
            omega
    omega
  rw [Nat.testBit_to_div_mod, hdiv]
  rfl

theorem int_topbit {t : ℤ} (ht : 0 < t) : Int.testBit t (high_bit t) = true := by
  obtain ⟨m, rfl⟩ := Int.eq_ofNat_of_zero_le ht.le
  have hm : m ≠ 0 := by
    intro hc
    rw [hc] at ht
    exact lt_irrefl 0 ht
  show Nat.testBit m (bitlen (Int.natAbs (.ofNat m)) - 1) = true
  have habs : Int.natAbs (.ofNat m) = m := rfl
  rw [habs]
  exact bitlen_testBit hm

theorem tb_two_pow (h k : ℕ) : ((2 : ℤ) ^ h).testBit k = decide (h = k) := by
  have hcast : ((2 : ℤ) ^ h) = ((2 ^ h : ℕ) : ℤ) := by
    push_cast
    rfl
  rw [hcast]
  show Nat.testBit (2 ^ h) k = decide (h = k)
  exact Nat.testBit_two_pow

/-! ## Lemmas about the icon title lookup -/

theorem find_map_assoc {β : Type} (L : List String) (f : String → β) (l : String)
    (hl : l ∈ L) :
    (L.map (fun n => (n, f n))).find? (fun p => p.1 == l) = some (l, f l) := by
  induction L with
  | nil => cases hl
  | cons n L ih =>
    by_cases h : n = l
    · subst h
      simp [List.find?_cons_of_pos]
    · have hbeq : ((n : String) == l) = false := beq_eq_false_iff_ne.mpr h
      rw [List.map_cons]
      simp only [List.find?_cons, hbeq]
      refine ih ?_
      rcases List.mem_cons.mp hl with h1 | h1
      · exact absurd h1.symm h
      · exact h1

theorem go_total (names : List (String × Option AppTitle)) (language : List String)
    (hl : ∀ l ∈ language, ∃ v, names.find? (fun p => p.1 == l) = some v) :
    ∃ t, get_app_title_go names language = .ok t := by
  induction language with
  | nil => exact ⟨_, rfl⟩
  | cons lang rest ih =>
    obtain ⟨⟨k, w⟩, hv⟩ := hl lang (by simp)
    rw [get_app_title_go, hv]
    cases w with
    | some t => exact ⟨t, rfl⟩
    | none =>
      obtain ⟨t, ht⟩ := ih (fun l hm => hl l (by simp [hm]))
      exact ⟨t, ht⟩

theorem go_unknown (names : List (String × Option AppTitle)) (language : List String)
    (hl : ∀ l ∈ language, ∃ k, names.find? (fun p => p.1 == l) = some (k, none)) :
    get_app_title_go names language = .ok ⟨("unknown"), ("unknown"), ("unknown")⟩ := by
  induction language with
  | nil => rfl
  | cons lang rest ih =>
    obtain ⟨k, hv⟩ := hl lang (by simp)
    rw [get_app_title_go, hv]
    exact ih (fun l hm => hl l (by simp [hm]))

/-! ## Lemmas about path normalization -/

theorem sw_cons_single (x : Char) (xs : List Char) (c : Char) :
    str_startswith (x :: xs) [c] = (c == x) := by
  simp [str_startswith]

theorem sw_single_take (l : List Char) (c : Char) (n : ℕ)
    (h : str_startswith l [c] = false) : str_startswith (l.take n) [c] = false := by
  cases l with
  | nil => simp [List.take_nil, str_startswith]
  | cons x xs =>
    cases n with
    | zero => simp [str_startswith]
    | succ m =>
      simp only [List.take_succ_cons]
      rw [sw_cons_single] at h
      rw [sw_cons_single]
      exact h

theorem normalize_fixed (q : List Char)
    (hq : str_startswith q (("/").data) = false)
    (htake : str_endswith (str_lower q) ((".bin").data) = true → q.take 4 = q) :
    _normalize_path q = q := by
  have hq' : ¬ (str_startswith q (("/").data) = true) := by
    rw [hq]
    exact Bool.false_ne_true
  simp only [_normalize_path, if_neg hq']
  by_cases hbin : str_endswith (str_lower q) ((".bin").data) = true
  · rw [if_pos hbin]
    exact htake hbin
  · rw [if_neg hbin]

/-! ## Lemmas about flag decomposition -/

theorem orMembers_cons (m : FlagMember) (ms : List FlagMember) :
    orMembers (m :: ms) = pyOr m.value (orMembers ms) := rfl

theorem orMembers_append (a b : List FlagMember) :
    orMembers (a ++ b) = pyOr (orMembers a) (orMembers b) := by
  induction a with
  | nil => simp [orMembers, zero_pyOr]
  | cons m ms ih =>
    rw [List.cons_append, orMembers_cons, orMembers_cons, ih, pyOr_assoc]

theorem orMembers_insertDesc (a : FlagMember) (l : List FlagMember) :
    orMembers (insertDesc a l) = pyOr a.value (orMembers l) := by
  induction l with
  | nil => rfl
  | cons x xs ih =>
    rw [insertDesc]
    by_cases hx : x.value ≤ a.value
    · rw [if_pos hx, orMembers_cons]
    · rw [if_neg hx, orMembers_cons, ih, orMembers_cons, pyOr_left_comm]

theorem orMembers_sortDesc (l : List FlagMember) :
    orMembers (sortDesc l) = orMembers l := by
  induction l with
  | nil => rfl
  | cons a rest ih =>
    rw [sortDesc, orMembers_insertDesc, ih, orMembers_cons]

theorem mem_insertDesc {m a : FlagMember} : ∀ {l : List FlagMember},
    m ∈ insertDesc a l → m = a ∨ m ∈ l := by
  intro l
  induction l with
  | nil =>
    intro hm
    rcases List.mem_singleton.mp hm with h
    exact Or.inl h
  | cons x xs ih =>
    intro hm
    rw [insertDesc] at hm
    by_cases hx : x.value ≤ a.value
    · rw [if_pos hx] at hm
      rcases List.mem_cons.mp hm with h | h
      · exact Or.inl h
      · exact Or.inr h
    · rw [if_neg hx] at hm
      rcases List.mem_cons.mp hm with h | h
      · exact Or.inr (List.mem_cons.mpr (Or.inl h))
      · rcases ih h with h2 | h2
        · exact Or.inl h2
        · exact Or.inr (List.mem_cons.mpr (Or.inr h2))

theorem mem_sortDesc {m : FlagMember} : ∀ {l : List FlagMember},
    m ∈ sortDesc l → m ∈ l := by
  intro l
  induction l with
  | nil => intro hm; exact absurd hm (List.not_mem_nil m)
  | cons a rest ih =>
    intro hm
    rw [sortDesc] at hm
    rcases mem_insertDesc hm with h | h
    · exact h ▸ List.mem_cons_self a rest
    · exact List.mem_cons.mpr (Or.inr (ih h))

theorem phase1_mem_sub (value : ℤ) : ∀ (tbl : List FlagMember) (nc : ℤ),
    ∀ m ∈ (phase1 value tbl nc).1, m ∈ tbl ∧ pyAnd m.value value = m.value := by
  intro tbl
  induction tbl with
  | nil => intro nc m hm; exact absurd hm (List.not_mem_nil m)
  | cons m0 rest ih =>
    intro nc m hm
    rw [phase1] at hm
    by_cases hc : (m0.value != 0 && (pyAnd m0.value value == m0.value)) = true
    · rw [if_pos hc] at hm
      rcases List.mem_cons.mp hm with h | h
      · subst h
        obtain ⟨_, h2⟩ := Bool.and_eq_true_iff.mp hc
        exact ⟨List.mem_cons_self _ _, beq_iff_eq.mp h2⟩
      · obtain ⟨ha, hb⟩ := ih _ m h
        exact ⟨List.mem_cons.mpr (Or.inr ha), hb⟩
    · rw [if_neg hc] at hm
      obtain ⟨ha, hb⟩ := ih nc m hm
      exact ⟨List.mem_cons.mpr (Or.inr ha), hb⟩

theorem phase1_total (value : ℤ) : ∀ (tbl : List FlagMember) (nc : ℤ),
    pyOr (orMembers (phase1 value tbl nc).1) (phase1 value tbl nc).2 =
      pyOr (orMembers (phase1 value tbl nc).1) nc := by
  intro tbl
  induction tbl with
  | nil => intro nc; rfl
  | cons m0 rest ih =>
    intro nc
    rw [phase1]
    by_cases hc : (m0.value != 0 && (pyAnd m0.value value == m0.value)) = true
    · rw [if_pos hc]
      show pyOr (orMembers (m0 :: (phase1 value rest (pyAnd nc (pyNot m0.value))).1))
          (phase1 value rest (pyAnd nc (pyNot m0.value))).2 = _
      rw [orMembers_cons, pyOr_assoc, ih (pyAnd nc (pyNot m0.value)),
        pyOr_left_comm, pyOr_absorb, pyOr_left_comm, ← pyOr_assoc, ← orMembers_cons]
    · rw [if_neg hc]
      exact ih nc

theorem phase1_nonneg (value : ℤ) : ∀ (tbl : List FlagMember) (nc : ℤ),
    0 ≤ nc → 0 ≤ (phase1 value tbl nc).2 := by
  intro tbl
  induction tbl with
  | nil => intro nc h; exact h
  | cons m0 rest ih =>
    intro nc h
    rw [phase1]
    by_cases hc : (m0.value != 0 && (pyAnd m0.value value == m0.value)) = true
    · rw [if_pos hc]
      exact ih _ (pyAnd_nonneg _ h)
    · rw [if_neg hc]
      exact ih nc h

theorem orMembers_cover {value : ℤ} : ∀ (ms : List FlagMember),
    (∀ m ∈ ms, pyAnd m.value value = m.value) →
    pyOr (orMembers ms) value = value := by
  intro ms
  induction ms with
  | nil => intro _; exact zero_pyOr value
  | cons m rest ih =>
    intro h
    rw [orMembers_cons, pyOr_assoc, ih (fun x hx => h x (List.mem_cons.mpr (Or.inr hx))),
      pyOr_of_and_eq (h m (List.mem_cons_self _ _))]

theorem or_eq_right_bit {a b : ℤ} (h : pyOr a b = b) {k : ℕ}
    (ha : a.testBit k = true) : b.testBit k = true := by
  have hk := congrArg (fun z => Int.testBit z k) h
  simp only [tb_or] at hk
  rw [ha] at hk
  simpa using hk.symm

theorem or_drop {a b fv : ℤ} (h : pyOr a b = b) :
    pyOr (pyAnd a (pyNot fv)) b = b := by
  apply int_testBit_ext
  intro k
  have hk := congrArg (fun z => Int.testBit z k) h
  simp only [tb_or] at hk
  simp only [tb_or, tb_and, tb_not]
  cases ha : a.testBit k <;> cases hb : b.testBit k <;> cases hf : fv.testBit k <;>
    simp_all

theorem or_clear_both {a b fv : ℤ} (h : pyOr a b = b) :
    pyOr (pyAnd a (pyNot fv)) (pyAnd b (pyNot fv)) = pyAnd b (pyNot fv) := by
  apply int_testBit_ext
  intro k
  have hk := congrArg (fun z => Int.testBit z k) h
  simp only [tb_or] at hk
  simp only [tb_or, tb_and, tb_not]
  cases ha : a.testBit k <;> cases hb : b.testBit k <;> cases hf : fv.testBit k <;>
    simp_all

theorem fv_and_of_or {tmp nc : ℤ} (htmp : 0 < tmp) (h : pyOr tmp nc = nc) :
    pyAnd ((2 : ℤ) ^ high_bit tmp) nc = (2 : ℤ) ^ high_bit tmp := by
  apply int_testBit_ext
  intro k
  simp only [tb_and, tb_two_pow]
  by_cases hk : high_bit tmp = k
  · subst hk
    have hnc : nc.testBit (high_bit tmp) = true := or_eq_right_bit h (int_topbit htmp)
    simp [hnc]
  · simp [hk]

theorem coverAux_mem (tbl : List FlagMember) : ∀ (fuel : ℕ) (tmp nc : ℤ),
    ∀ m ∈ (coverAux tbl fuel tmp nc).1, m ∈ tbl := by
  intro fuel
  induction fuel with
  | zero => intro tmp nc m hm; exact absurd hm (List.not_mem_nil m)
  | succ f ih =>
    intro tmp nc m hm
    rw [coverAux] at hm
    by_cases h0 : (tmp == 0) = true
    · rw [if_pos h0] at hm
      exact absurd hm (List.not_mem_nil m)
    · rw [if_neg h0] at hm
      dsimp only at hm
      cases hv : value2member tbl ((2 : ℤ) ^ high_bit tmp) with
      | some m0 =>
        rw [hv] at hm
        have hv' : List.find? (fun m => m.value == ((2 : ℤ) ^ high_bit tmp)) tbl =
            some m0 := hv
        rcases List.mem_cons.mp hm with h | h
        · exact h ▸ List.mem_of_find?_eq_some hv'
        · exact ih _ _ m h
      | none =>
        rw [hv] at hm
        exact ih _ _ m hm

theorem coverAux_or (tbl : List FlagMember) : ∀ (fuel : ℕ) (tmp nc : ℤ),
    0 ≤ tmp → pyOr tmp nc = nc →
    pyOr (orMembers (coverAux tbl fuel tmp nc).1) (coverAux tbl fuel tmp nc).2 = nc := by
  intro fuel
  induction fuel with
  | zero => intro tmp nc _ _; exact zero_pyOr nc
  | succ f ih =>
    intro tmp nc hge hsub
    rw [coverAux]
    by_cases h0 : (tmp == 0) = true
    · rw [if_pos h0]
      exact zero_pyOr nc
    · rw [if_neg h0]
      dsimp only
      have htmp : 0 < tmp := by
        rcases lt_or_eq_of_le hge with h | h
        · exact h
        · exact absurd (beq_iff_eq.mpr h.symm) h0
      have hfv : pyAnd ((2 : ℤ) ^ high_bit tmp) nc = (2 : ℤ) ^ high_bit tmp :=
        fv_and_of_or htmp hsub
      have htmp' : 0 ≤ pyAnd tmp (pyNot ((2 : ℤ) ^ high_bit tmp)) :=
        pyAnd_nonneg _ hge
      cases hv : value2member tbl ((2 : ℤ) ^ high_bit tmp) with
      | some m0 =>
        dsimp only
        have hv' : List.find? (fun m => m.value == ((2 : ℤ) ^ high_bit tmp)) tbl =
            some m0 := hv
        have hptrue := List.find?_some hv'
        have hm0 : m0.value = (2 : ℤ) ^ high_bit tmp := beq_iff_eq.mp hptrue
        rw [orMembers_cons, pyOr_assoc,
          ih _ _ htmp' (or_clear_both hsub), hm0, pyOr_absorb,
          pyOr_of_and_eq hfv]
      | none =>
        dsimp only
        exact ih _ _ htmp' (or_drop hsub)

theorem decompose_p2_or (tbl : List FlagMember) (value : ℤ) :
    pyOr (orMembers (decompose_p2 tbl value).1) (decompose_p2 tbl value).2 = value := by
  rw [decompose_p2]
  have hp1 := phase1_total value tbl value
  have hsub : ∀ m ∈ (phase1 value tbl value).1, pyAnd m.value value = m.value :=
    fun m hm => (phase1_mem_sub value tbl value m hm).2
  have hval : pyOr (orMembers (phase1 value tbl value).1) value = value :=
    orMembers_cover _ hsub
  by_cases hneg : value < 0
  · rw [if_pos hneg, hp1, hval]
  · rw [if_neg hneg]
    dsimp only
    have hge : (0 : ℤ) ≤ (phase1 value tbl value).2 :=
      phase1_nonneg value tbl value (le_of_not_lt hneg)
    have hcov := coverAux_or tbl ((phase1 value tbl value).2.natAbs + 1)
      (phase1 value tbl value).2 (phase1 value tbl value).2 hge (pyOr_self _)
    rw [orMembers_append, pyOr_assoc, hcov, hp1, hval]

theorem decompose_p2_mem (tbl : List FlagMember) (value : ℤ) :
    ∀ m ∈ (decompose_p2 tbl value).1, m ∈ tbl := by
  intro m hm
  rw [decompose_p2] at hm
  by_cases hneg : value < 0
  · rw [if_pos hneg] at hm
    exact (phase1_mem_sub value tbl value m hm).1
  · rw [if_neg hneg] at hm
    dsimp only at hm
    rcases List.mem_append.mp hm with h | h
    · exact (phase1_mem_sub value tbl value m h).1
    · exact coverAux_mem tbl _ _ _ m h

theorem decompose_p3_of_none {tbl : List FlagMember} {value : ℤ}
    (h : value2member tbl value = none) :
    decompose_p3 tbl value = decompose_p2 tbl value := by
  rw [decompose_p3]
  by_cases he : (decompose_p2 tbl value).1.isEmpty = true
  · rw [if_pos he, h]
  · rw [if_neg he]

theorem decompose_reconstruct {tbl : List FlagMember} {value : ℤ}
    (h : value2member tbl value = none) :
    reconstruct (decompose tbl value) = value := by
  rw [decompose]
  rw [decompose_p3_of_none h]
  have hor : pyOr (orMembers (sortDesc (decompose_p2 tbl value).1))
      (decompose_p2 tbl value).2 = value := by
    rw [orMembers_sortDesc]
    exact decompose_p2_or tbl value
  cases hs : sortDesc (decompose_p2 tbl value).1 with
  | nil =>
    rw [hs] at hor
    exact hor
  | cons m tail =>
    cases tail with
    | nil =>
      rw [hs] at hor
      exact hor
    | cons x rest =>
      rw [hs] at hor
      have hmem : m ∈ tbl :=
        decompose_p2_mem tbl value m (mem_sortDesc (hs ▸ List.mem_cons_self m (x :: rest)))
      have hne : ¬ ((m.value == value) = true) := by
        intro hbe
        have heq : m.value = value := beq_iff_eq.mp hbe
        have hnone := List.find?_eq_none.mp h m hmem
        exact hnone (by simpa using beq_iff_eq.mpr heq)
      dsimp only
      rw [if_neg hne]
      exact hor

theorem phase1_zero : ∀ (tbl : List FlagMember) (nc : ℤ), phase1 0 tbl nc = ([], nc) := by
  intro tbl
  induction tbl with
  | nil => intro nc; rfl
  | cons m0 rest ih =>
    intro nc
    rw [phase1]
    have hc : (m0.value != 0 && (pyAnd m0.value 0 == m0.value)) = false := by
      by_cases hm : m0.value = 0
      · simp [hm]
      · have h1 : pyAnd m0.value 0 = 0 := pyAnd_zero _
        rw [h1]
        have h2 : ((0 : ℤ) == m0.value) = false := by
          cases hbe : ((0 : ℤ) == m0.value) with
          | false => rfl
          | true => exact absurd (beq_iff_eq.mp hbe).symm hm
        rw [h2, Bool.and_false]
    rw [if_neg (by rw [hc]; exact Bool.false_ne_true)]
    exact ih nc

theorem coverAux_tmp_zero (tbl : List FlagMember) :
    ∀ (fuel : ℕ) (nc : ℤ), coverAux tbl fuel 0 nc = ([], nc) := by
  intro fuel nc
  cases fuel with
  | zero => rfl
  | succ f =>
    rw [coverAux]
    rw [if_pos (by rfl)]

theorem decompose_zero (tbl : List FlagMember) (h : value2member tbl 0 = none) :
    (decompose tbl 0).1 = [] := by
  have hp2 : decompose_p2 tbl 0 = ([], 0) := by
    rw [decompose_p2]
    rw [phase1_zero]
    rw [if_neg (lt_irrefl (0 : ℤ))]
    dsimp only
    rw [coverAux_tmp_zero]
    rfl
  rw [decompose]
  rw [decompose_p3_of_none h, hp2]
  rfl

/-! ## The claims -/

/-- C1: the source compares the integer region-lockout byte against string
literals, so every branch is dead: for a container with unit-code low bit set
and extended-header byte 0x34 equal to 0x80 the reader stores the decimal
string "128", not the label "China" required by the claim. -/
theorem c1_region_lockout_eval :
    ((SRLReader_init (.ok c1_file) [] (.error (IconError.err ("short")))).toOption.map
      (fun st => st.regionlocks) = some (("128"))) ∧
    region_lockout_label 0x80 = ("128") ∧ (("128") : String) ≠ ("China") :=
  ⟨by decide, by decide, by decide⟩

/-- C2: open resolves the entry (offset 0x8000, size 0x100) but returns a
subsection whose window starts at the reader's icon offset 0x2400, not at the
entry's offset, contradicting the claim. -/
theorem c2_open_subsection_eval :
    SRLReader_open c2_state (("arm9").data) true = .ok (.subsection 0x2400 0x100) ∧
    c2_state.entries.find? (fun e => e.1 == (("arm9").data)) =
      some ((("arm9").data), { offset := 0x8000, size := 0x100 }) ∧
    (0x2400 : ℤ) ≠ 0x8000 :=
  ⟨by decide, by decide, by decide⟩

/-- C3: when the (possibly normalized) path is absent from the entry table,
`open` fails with `EntryNotFoundError` and the error propagates — the source
has no handler around the lookup. -/
theorem c3_open_unresolved_raises (st : SRLState) (path : List Char) (normalize : Bool)
    (h : st.entries.find?
        (fun e => e.1 == (if normalize then _normalize_path path else path)) = none) :
    SRLReader_open st path normalize = .error .entryNotFoundError := by
  simp only [SRLReader_open]
  rw [h]

theorem c3_open_unresolved_witness :
    (c3_state.entries.find?
        (fun e => e.1 == (if true then _normalize_path (("code").data) else (("code").data))) =
      none) ∧
    SRLReader_open c3_state (("code").data) true = .error .entryNotFoundError :=
  ⟨by decide, c3_open_unresolved_raises c3_state (("code").data) true (by decide)⟩

/-- C4: with a readable primary header, construction succeeds for every icon
decoding failure, and the container is left without an icon; no icon error
reaches the caller. -/
theorem c4_init_swallows_icon_errors (file : List ℕ) (entries : List (List Char × Entry))
    (e : IconError) :
    ∃ st, SRLReader_init (.ok file) entries (.error e) = .ok st ∧ st.icon = none :=
  ⟨_, rfl, rfl⟩

/-- C5: over any preference order drawn from the region names, get_app_title
returns a value (never a KeyError), and when the underlying title dict has no
entry for any preferred language it returns the "unknown" triple. -/
theorem c5_get_app_title_total (names0 : List (String × AppTitle)) (rl : String)
    (si pal : List ℕ) (language : List String)
    (hl : ∀ l ∈ language, l ∈ region_names) :
    (∃ t, get_app_title (SRLIcon_mk names0 rl si pal) language = .ok t) ∧
    ((∀ l ∈ language, names0.find? (fun p => p.1 == l) = none) →
      get_app_title (SRLIcon_mk names0 rl si pal) language =
        .ok ⟨("unknown"), ("unknown"), ("unknown")⟩) := by
  have hnames : (SRLIcon_mk names0 rl si pal).names =
      region_names.map
        (fun n => (n, (names0.find? (fun p => p.1 == n)).map (fun p => p.2))) := rfl
  constructor
  · apply go_total
    intro l hm
    rw [hnames, find_map_assoc region_names _ l (hl l hm)]
    exact ⟨_, rfl⟩
  · intro habs
    apply go_unknown
    intro l hm
    refine ⟨l, ?_⟩
    rw [hnames, find_map_assoc region_names _ l (hl l hm), habs l hm]
    rfl

theorem c5_get_app_title_witness :
    (∀ l ∈ ([("English")] : List String), l ∈ region_names) ∧
    ((∃ t, get_app_title (SRLIcon_mk [] ("") [] []) [("English")] = .ok t) ∧
     ((∀ l ∈ ([("English")] : List String),
        (([] : List (String × AppTitle)).find? (fun p => p.1 == l)) = none) →
      get_app_title (SRLIcon_mk [] ("") [] []) [("English")] =
        .ok ⟨("unknown"), ("unknown"), ("unknown")⟩)) :=
  ⟨by decide, c5_get_app_title_total [] ("") [] [] [("English")] (by decide)⟩

/-- C6: the source truncates with `p[:4]` (the first four characters) instead
of stripping the ".bin" suffix, so "/foo.bin" normalizes to "foo." while
"foo" normalizes to "foo" — the two spellings do not resolve identically. -/
theorem c6_normalize_path_eval :
    _normalize_path (("/foo.bin").data) = (("foo.").data) ∧
    _normalize_path (("/foo.bin").data) ≠ _normalize_path (("foo").data) :=
  ⟨by decide, by decide⟩

/-- C7 counterexample: normalization is not idempotent — "//a" normalizes to
"/a", which normalizes again to "a". -/
theorem c7_normalize_not_idempotent :
    _normalize_path (_normalize_path (("//a").data)) ≠ _normalize_path (("//a").data) := by
  decide

/-- C7 amended: normalization is idempotent for every path that does not
begin with two leading path separators. -/
theorem c7_normalize_idempotent_amended (p : List Char)
    (h : str_startswith p (("//").data) = false) :
    _normalize_path (_normalize_path p) = _normalize_path p := by
  obtain ⟨p1, hp1def, hp1⟩ : ∃ p1,
      (if str_startswith p (("/").data) = true then p.drop 1 else p) = p1 ∧
      str_startswith p1 (("/").data) = false := by
    cases p with
    | nil => exact ⟨[], by simp [str_startswith], by simp [str_startswith]⟩
    | cons x xs =>
      by_cases hx : (('/' : Char) == x) = true
      · have hs : str_startswith (x :: xs) (("/").data) = true := by
          show str_startswith (x :: xs) ['/'] = true
          rw [sw_cons_single]
          exact hx
        refine ⟨xs, by rw [if_pos hs, List.drop_succ_cons, List.drop_zero], ?_⟩
        cases xs with
        | nil => simp [str_startswith]
        | cons y ys =>
          show str_startswith (y :: ys) ['/'] = false
          rw [sw_cons_single]
          have hxeq : x = '/' := (beq_iff_eq.mp hx).symm
          subst hxeq
          by_contra hy
          have hy' : (('/' : Char) == y) = true := by
            cases hcase : (('/' : Char) == y) with
            | false => exact absurd hcase hy
            | true => rfl
          have hcontra : str_startswith ('/' :: y :: ys) (("//").data) = true := by
            show str_startswith ('/' :: y :: ys) ['/', '/'] = true
            simp [str_startswith, hy']
          rw [h] at hcontra
          exact Bool.false_ne_true hcontra
      · have hs : ¬ (str_startswith (x :: xs) (("/").data) = true) := by
          show ¬ (str_startswith (x :: xs) ['/'] = true)
          rw [sw_cons_single]
          simpa using hx
        refine ⟨x :: xs, by rw [if_neg hs], ?_⟩
        show str_startswith (x :: xs) ['/'] = false
        rw [sw_cons_single]
        simpa using hx
  have hstep : _normalize_path p =
      (if str_endswith (str_lower p1) ((".bin").data) = true then p1.take 4 else p1) := by
    simp only [_normalize_path]
    rw [hp1def]
  rw [hstep]
  by_cases hbin : str_endswith (str_lower p1) ((".bin").data) = true
  · rw [if_pos hbin]
    refine normalize_fixed _ (sw_single_take p1 '/' 4 hp1) ?_
    intro _
    have hlen : (p1.take 4).length ≤ 4 := by simp
    exact List.take_of_length_le hlen
  · rw [if_neg hbin]
    exact normalize_fixed _ hp1 (fun hc => absurd hc hbin)

theorem c7_normalize_idempotent_witness :
    str_startswith (("/code.bin").data) (("//").data) = false ∧
    _normalize_path (_normalize_path (("/code.bin").data)) =
      _normalize_path (("/code.bin").data) :=
  ⟨by decide, c7_normalize_idempotent_amended (("/code.bin").data) (by decide)⟩

/-- C8: roundup computes with binary64 division, and at offset 2^53 + 1 with
alignment 2 the quotient rounds down to 2^52, so the result 2^53 is smaller
than the offset, contradicting result >= x. -/
theorem c8_roundup_float_eval :
    roundup (2 ^ 53 + 1) 2 = 2 ^ 53 ∧ ((2 ^ 53 : ℤ) < ((2 ^ 53 + 1 : ℕ) : ℤ)) := by
  have h1 : float53 (2 ^ 53 + 1) 2 = (2 ^ 52, 52) := by decide
  refine ⟨?_, by norm_num⟩
  unfold roundup float53_div
  rw [h1]
  norm_num

/-- C9 counterexample: with named members A = 3 and B = 1 and input 3 the
sorted member list is popped down to [B], so the OR of the returned members
with the residual is 1, not the original input 3. -/
theorem c9_reconstruct_counterexample :
    decompose c9_table 3 = ([{ name := ("B"), value := 1 }], 0) ∧
    reconstruct (decompose c9_table 3) = 1 ∧ ((1 : ℤ) ≠ 3) :=
  ⟨by decide, by decide, by decide⟩

/-- C9 amended: for every flag table and every integer input that is not
itself the value of a named member (the function's documented precondition),
the OR of the returned members' values together with the residual
reconstructs the input exactly, and the returned member list is empty when
the input is zero. -/
theorem c9_decompose_amended (tbl : List FlagMember) (value : ℤ)
    (h : value2member tbl value = none) :
    reconstruct (decompose tbl value) = value ∧
    (value = 0 → (decompose tbl value).1 = []) :=
  ⟨decompose_reconstruct h, fun hz => by
    subst hz
    exact decompose_zero tbl h⟩

theorem c9_decompose_witness :
    value2member c9_table2 5 = none ∧
    (reconstruct (decompose c9_table2 5) = 5 ∧
      ((5 : ℤ) = 0 → (decompose c9_table2 5).1 = [])) :=
  ⟨by decide, c9_decompose_amended c9_table2 5 (by decide)⟩

/-- C10: when icon decoding fails the `icon` attribute is never assigned and
accessing it raises AttributeError; when decoding succeeds the attribute
holds exactly the decoded icon. -/
theorem c10_icon_attribute_absent (file : List ℕ) (entries : List (List Char × Entry))
    (e : IconError) (i : SRLIcon) :
    (∃ st, SRLReader_init (.ok file) entries (.error e) = .ok st ∧ st.icon = none ∧
      SRLReader_icon st = .error .attributeError) ∧
    (∃ st, SRLReader_init (.ok file) entries (.ok i) = .ok st ∧ st.icon = some i) :=
  ⟨⟨_, rfl, rfl, rfl⟩, ⟨_, rfl, rfl⟩⟩
